import Mathlib

/-!
Verification of the TF-IDF + cosine-similarity recommendation core of the
`recommendation_system` repository.

The source is a PySpark notebook pipeline:
tokens → `CountVectorizer` (term counts over a corpus-built vocabulary)
→ `IDF` (Spark's smoothed inverse document frequency
  `idf(t) = ln((N + 1) / (df(t) + 1))`)
→ `Normalizer` (L2 normalisation, returning the vector unchanged when its
  norm is zero) → `IndexedRowMatrix` product `M * Mᵀ` (all-pairs cosine
  similarity) → `argsort()[::-1][:k]` (top-k retrieval).

Items are embedded as their token lists; an item identifier is its row
index in the corpus.  Floating-point values are modelled as real numbers.
The vocabulary index order is modelled as first-seen order; Spark's
`CountVectorizer` orders indices by corpus frequency, a permutation of the
same token set, and no verified property depends on the index order.
numpy's `argsort` is modelled as a stable ascending sort (index-ascending
on ties).
-/

namespace RecSys

/-- A corpus: one token list per item, indexed by item identifier. -/
abbrev Corpus := List (List String)

/-- Term frequency of token `t` in one item's token list: the raw count
(`CountVectorizer` output for the column of `t`). -/
def tf (doc : List String) (t : String) : ℕ := doc.count t

/-- Document frequency of token `t`: the number of items of the corpus
whose token list contains `t`. -/
def df (c : Corpus) (t : String) : ℕ := (c.filter (fun d => t ∈ d)).length

/-- Spark `IDF`'s smoothed inverse document frequency:
`ln((N + 1) / (d + 1))` for corpus size `N` and document frequency `d`. -/
noncomputable def idf (N d : ℕ) : ℝ := Real.log ((N + 1) / (d + 1))

/-- The spec's stated inverse document frequency, written from the spec's
words for comparison with `idf`: `ln((N + 1) / (d + 1)) + 1`. -/
noncomputable def idfSpecFormula (N d : ℕ) : ℝ := Real.log ((N + 1) / (d + 1)) + 1

/-- The vocabulary built from the corpus: all distinct tokens
(`CountVectorizer.fit`), modelled in first-seen order. -/
def vocab (c : Corpus) : List String := c.flatten.eraseDups

/-- The TF-IDF row of one document: over vocabulary `voc`, each entry is
`tf * idf`, with document frequencies taken over corpus `c`
(the corpus the `IDF` model was fit on). -/
noncomputable def tfidfRow (voc : List String) (c : Corpus) (doc : List String) : List ℝ :=
  voc.map (fun t => (tf doc t : ℝ) * idf c.length (df c t))

/-- The (un-normalised) TF-IDF weight of token `t` for item `i`. -/
noncomputable def weight (c : Corpus) (i : ℕ) (t : String) : ℝ :=
  (tf (c.getD i []) t : ℝ) * idf c.length (df c t)

/-- The spec's stated weight `tf(i,t) * (ln((N + 1) / (df(t) + 1)) + 1)`,
written from the spec's words for comparison with `weight`. -/
noncomputable def weightSpecFormula (c : Corpus) (i : ℕ) (t : String) : ℝ :=
  (tf (c.getD i []) t : ℝ) * idfSpecFormula c.length (df c t)

/-- Sum of squares of a vector's entries. -/
def sumSq (v : List ℝ) : ℝ := (v.map (fun x => x * x)).sum

/-- L2 norm of a vector. -/
noncomputable def norm2 (v : List ℝ) : ℝ := Real.sqrt (sumSq v)

/-- Spark `Normalizer` with `p = 2`: divide every entry by the L2 norm;
when the norm is zero the input vector is returned unchanged (the division
branch is not taken). -/
noncomputable def normalize (v : List ℝ) : List ℝ :=
  if norm2 v = 0 then v else v.map (fun x => x / norm2 v)

/-- Dot product of two vectors (entrywise product, summed). -/
def dot (v w : List ℝ) : ℝ := (List.zipWith (fun x y => x * y) v w).sum

/-- `CosinusSimilarityClassifier._fit_tf_idf`: the vocabulary is fit on the
`df` argument (`dfArg`), but the count vectorizer, the `IDF` model and the
normalizer are applied to the rows of the module-level global `tokens_df`
(`global_`).  Returns one normalised TF-IDF row per item of `global_`. -/
noncomputable def fitRows (global_ dfArg : Corpus) : List (List ℝ) :=
  global_.map (fun doc => normalize (tfidfRow (vocab dfArg) global_ doc))

/-- Entry `(i, j)` of the matrix `M * Mᵀ` for row list `rows`:
the dot product of rows `i` and `j` (out-of-range rows are empty). -/
def simMat (rows : List (List ℝ)) (i j : ℕ) : ℝ :=
  dot (rows.getD i []) (rows.getD j [])

/-- The cosine-similarity matrix produced by
`CosinusSimilarityClassifier.fit(df=dfArg)` with global `tokens_df`. -/
noncomputable def fitSim (global_ dfArg : Corpus) (i j : ℕ) : ℝ :=
  simMat (fitRows global_ dfArg) i j

/-- The similarity matrix of the notebook's actual run, where the `df`
argument passed to `fit` is the global `tokens_df` itself. -/
noncomputable def sim (c : Corpus) (i j : ℕ) : ℝ := fitSim c c i j

/-- The TF-IDF weight vector of item `i` over the corpus vocabulary. -/
noncomputable def weightRow (c : Corpus) (i : ℕ) : List ℝ :=
  tfidfRow (vocab c) c (c.getD i [])

lemma sumSq_nil : sumSq [] = 0 := rfl

lemma sumSq_cons (a : ℝ) (v : List ℝ) : sumSq (a :: v) = a * a + sumSq v := by
  simp [sumSq]

lemma sumSq_nonneg (v : List ℝ) : 0 ≤ sumSq v := by
  induction v with
  | nil => simp [sumSq]
  | cons a v ih =>
    rw [sumSq_cons]
    exact add_nonneg (mul_self_nonneg a) ih

lemma sumSq_eq_zero_iff (v : List ℝ) : sumSq v = 0 ↔ ∀ x ∈ v, x = 0 := by
  induction v with
  | nil => simp [sumSq]
  | cons a v ih =>
    rw [sumSq_cons]
    rw [add_eq_zero_iff_of_nonneg (mul_self_nonneg a) (sumSq_nonneg v)]
    simp [mul_self_eq_zero, ih]

lemma norm2_nonneg (v : List ℝ) : 0 ≤ norm2 v := Real.sqrt_nonneg _

lemma norm2_eq_zero_iff (v : List ℝ) : norm2 v = 0 ↔ sumSq v = 0 := by
  rw [norm2, Real.sqrt_eq_zero (sumSq_nonneg v)]

lemma norm2_mul_self (v : List ℝ) : norm2 v * norm2 v = sumSq v :=
  Real.mul_self_sqrt (sumSq_nonneg v)

lemma dot_comm (v w : List ℝ) : dot v w = dot w v := by
  rw [dot, dot, List.zipWith_comm_of_comm _ mul_comm]

lemma dot_self (v : List ℝ) : dot v v = sumSq v := by
  rw [dot, List.zipWith_same, sumSq]

lemma dot_nonneg (v w : List ℝ) (hv : ∀ x ∈ v, 0 ≤ x) (hw : ∀ x ∈ w, 0 ≤ x) :
    0 ≤ dot v w := by
  induction v generalizing w with
  | nil => simp [dot]
  | cons a v ih =>
    cases w with
    | nil => simp [dot]
    | cons b w =>
      rw [dot, List.zipWith_cons_cons, List.sum_cons]
      refine add_nonneg (mul_nonneg (hv a (by simp)) (hw b (by simp))) ?_
      exact ih w (fun x hx => hv x (by simp [hx])) (fun x hx => hw x (by simp [hx]))

lemma two_mul_dot_le (v w : List ℝ) : 2 * dot v w ≤ sumSq v + sumSq w := by
  induction v generalizing w with
  | nil =>
    simp only [dot, List.zipWith_nil_left, List.sum_nil, mul_zero]
    exact add_nonneg (sumSq_nonneg []) (sumSq_nonneg w)
  | cons a v ih =>
    cases w with
    | nil =>
      simp only [dot, List.zipWith_nil_right, List.sum_nil, mul_zero]
      exact add_nonneg (sumSq_nonneg _) (sumSq_nonneg [])
    | cons b w =>
      rw [dot, List.zipWith_cons_cons, List.sum_cons, sumSq_cons, sumSq_cons]
      have h1 : 2 * (a * b) ≤ a * a + b * b := by nlinarith [sq_nonneg (a - b)]
      have h2 := ih w
      rw [dot] at h2
      nlinarith

lemma sumSq_map_div (v : List ℝ) (n : ℝ) :
    sumSq (v.map (fun x => x / n)) = sumSq v / (n * n) := by
  induction v with
  | nil => simp [sumSq]
  | cons a v ih =>
    rw [List.map_cons, sumSq_cons, sumSq_cons, ih]
    by_cases hn : n = 0
    · simp [hn]
    · field_simp

lemma sumSq_normalize (v : List ℝ) (h : norm2 v ≠ 0) : sumSq (normalize v) = 1 := by
  rw [normalize, if_neg h, sumSq_map_div, norm2_mul_self]
  have : sumSq v ≠ 0 := by
    intro h0
    exact h ((norm2_eq_zero_iff v).mpr h0)
  field_simp

lemma sumSq_normalize_le_one (v : List ℝ) : sumSq (normalize v) ≤ 1 := by
  by_cases h : norm2 v = 0
  · rw [normalize, if_pos h]
    rw [norm2_eq_zero_iff] at h
    rw [h]
    norm_num
  · rw [sumSq_normalize v h]

lemma normalize_zero (v : List ℝ) (h : norm2 v = 0) : normalize v = v := by
  rw [normalize, if_pos h]

lemma normalize_nonneg (v : List ℝ) (hv : ∀ x ∈ v, 0 ≤ x) :
    ∀ x ∈ normalize v, 0 ≤ x := by
  intro x hx
  rw [normalize] at hx
  split at hx
  · exact hv x hx
  · obtain ⟨y, hy, rfl⟩ := List.mem_map.mp hx
    exact div_nonneg (hv y hy) (norm2_nonneg v)

lemma df_le_length (c : Corpus) (t : String) : df c t ≤ c.length :=
  List.length_filter_le _ _

lemma idf_nonneg (N d : ℕ) (h : d ≤ N) : 0 ≤ idf N d := by
  apply Real.log_nonneg
  rw [le_div_iff₀ (by positivity), one_mul]
  have : (d : ℝ) ≤ N := Nat.cast_le.mpr h
  linarith

lemma tfidfRow_nonneg (voc : List String) (c : Corpus) (doc : List String) :
    ∀ x ∈ tfidfRow voc c doc, 0 ≤ x := by
  intro x hx
  obtain ⟨t, _, rfl⟩ := List.mem_map.mp hx
  exact mul_nonneg (Nat.cast_nonneg _) (idf_nonneg _ _ (df_le_length c t))

lemma row_getD_nonneg (g d : Corpus) (i : ℕ) :
    ∀ x ∈ (fitRows g d).getD i [], 0 ≤ x := by
  by_cases h : i < (fitRows g d).length
  · rw [List.getD_eq_getElem _ _ h]
    have hm : (fitRows g d)[i] ∈ fitRows g d := List.getElem_mem h
    obtain ⟨doc, _, heq⟩ := List.mem_map.mp hm
    rw [← heq]
    exact normalize_nonneg _ (tfidfRow_nonneg _ _ _)
  · rw [List.getD_eq_default _ _ (le_of_not_lt h)]
    simp

lemma row_getD_sumSq_le_one (g d : Corpus) (i : ℕ) :
    sumSq ((fitRows g d).getD i []) ≤ 1 := by
  by_cases h : i < (fitRows g d).length
  · rw [List.getD_eq_getElem _ _ h]
    have hm : (fitRows g d)[i] ∈ fitRows g d := List.getElem_mem h
    obtain ⟨doc, _, heq⟩ := List.mem_map.mp hm
    rw [← heq]
    exact sumSq_normalize_le_one _
  · rw [List.getD_eq_default _ _ (le_of_not_lt h)]
    rw [sumSq_nil]
    norm_num

lemma sim_eq_dot (c : Corpus) (i j : ℕ) :
    sim c i j = dot ((fitRows c c).getD i []) ((fitRows c c).getD j []) := rfl

lemma idf_eq_zero_iff (N d : ℕ) (h : d ≤ N) : idf N d = 0 ↔ d = N := by
  rw [idf, Real.log_eq_zero]
  have hd : (0 : ℝ) < (d : ℝ) + 1 := by positivity
  have hN : (0 : ℝ) < (N : ℝ) + 1 := by positivity
  have hpos : 0 < ((N : ℝ) + 1) / ((d : ℝ) + 1) := div_pos hN hd
  constructor
  · rintro (h0 | h1 | hm1)
    · exact absurd h0 (ne_of_gt hpos)
    · rw [div_eq_one_iff_eq (ne_of_gt hd)] at h1
      have : (N : ℝ) = (d : ℝ) := by linarith
      exact (Nat.cast_inj.mp this).symm
    · exact absurd hm1 (by linarith)
  · rintro rfl
    right; left
    rw [div_eq_one_iff_eq (ne_of_gt hd)]

/-- C1 counterexample: on the one-item corpus `[["a"]]` the code's weight
for the term `"a"` is `0` (Spark's `idf = ln((N+1)/(df+1))` vanishes at
`df = N`), while the spec's formula `tf * (ln((N+1)/(df+1)) + 1)` gives
`1`, and the code's idf is not positive for this term although it appears
in an item. -/
theorem tfidf_spec_formula_cex :
    weight [["a"]] 0 "a" = 0 ∧
      weightSpecFormula [["a"]] 0 "a" = 1 ∧
      ¬ 0 < idf ([["a"]] : Corpus).length (df [["a"]] "a") := by
  have hdf : df [["a"]] "a" = 1 := by decide
  have htf : tf (([["a"]] : Corpus).getD 0 []) "a" = 1 := by decide
  have hidf : idf 1 1 = 0 := by
    rw [idf]
    norm_num
  refine ⟨?_, ?_, ?_⟩
  · rw [weight, htf, hdf]
    simp [hidf]
  · rw [weightSpecFormula, htf, hdf, idfSpecFormula]
    norm_num
  · intro hpos
    rw [show ([["a"]] : Corpus).length = 1 from rfl, hdf, hidf] at hpos
    exact lt_irrefl 0 hpos

/-- C1 amended: the TF-IDF stage assigns `w(i,t) = tf(i,t) * idf(t)` with
`idf(t) = ln((N+1)/(df(t)+1))` (no trailing `+1`); this idf is always
non-negative and vanishes exactly when `df(t) = N`, i.e. a term occurring
in every item gets zero weight instead of a positive idf. -/
theorem tfidf_weight_formula (c : Corpus) (i : ℕ) (t : String) :
    weight c i t =
        (tf (c.getD i []) t : ℝ) * Real.log ((c.length + 1) / (df c t + 1)) ∧
      0 ≤ idf c.length (df c t) ∧
      (idf c.length (df c t) = 0 ↔ df c t = c.length) :=
  ⟨rfl, idf_nonneg _ _ (df_le_length c t),
    idf_eq_zero_iff _ _ (df_le_length c t)⟩

lemma fitRows_length (g d : Corpus) : (fitRows g d).length = g.length := by
  rw [fitRows, List.length_map]

lemma fitRows_getD (g d : Corpus) (i : ℕ) (h : i < g.length) :
    (fitRows g d).getD i [] = normalize (tfidfRow (vocab d) g (g.getD i [])) := by
  have hl : i < (fitRows g d).length := by rw [fitRows_length]; exact h
  rw [List.getD_eq_getElem _ _ hl, List.getD_eq_getElem _ _ h]
  simp [fitRows]

/-- C4: for every item `i` of the corpus, the diagonal similarity entry is
`1` exactly when item `i` has a term of positive weight, `0` exactly when
its weight vector is all-zero, and no other value occurs. -/
theorem similarity_diag (c : Corpus) (i : ℕ) (h : i < c.length) :
    (sim c i i = 0 ∨ sim c i i = 1) ∧
      (sim c i i = 1 ↔ ∃ x ∈ weightRow c i, 0 < x) ∧
      (sim c i i = 0 ↔ ∀ x ∈ weightRow c i, x = 0) := by
  have hw : ∀ x ∈ weightRow c i, 0 ≤ x := tfidfRow_nonneg _ _ _
  have hrow : (fitRows c c).getD i [] = normalize (weightRow c i) :=
    fitRows_getD c c i h
  have hdiag : sim c i i = sumSq (normalize (weightRow c i)) := by
    rw [sim_eq_dot, hrow, dot_self]
  by_cases hn : norm2 (weightRow c i) = 0
  · have hz : ∀ x ∈ weightRow c i, x = 0 := by
      rw [norm2_eq_zero_iff, sumSq_eq_zero_iff] at hn
      exact hn
    have h0 : sim c i i = 0 := by
      rw [hdiag, normalize_zero _ hn, sumSq_eq_zero_iff]
      exact hz
    refine ⟨Or.inl h0, ?_, ?_⟩
    · rw [h0]
      constructor
      · intro h01
        exact absurd h01 (by norm_num)
      · rintro ⟨x, hx, hxpos⟩
        exact absurd (hz x hx) (ne_of_gt hxpos)
    · rw [h0]
      exact ⟨fun _ => hz, fun _ => rfl⟩
  · have h1 : sim c i i = 1 := by
      rw [hdiag, sumSq_normalize _ hn]
    have hex : ∃ x ∈ weightRow c i, 0 < x := by
      rw [norm2_eq_zero_iff] at hn
      have : ¬ ∀ x ∈ weightRow c i, x = 0 := fun hall =>
        hn ((sumSq_eq_zero_iff _).mpr hall)
      push_neg at this
      obtain ⟨x, hx, hxne⟩ := this
      exact ⟨x, hx, lt_of_le_of_ne (hw x hx) (Ne.symm hxne)⟩
    refine ⟨Or.inr h1, ?_, ?_⟩
    · rw [h1]
      exact ⟨fun _ => hex, fun _ => rfl⟩
    · rw [h1]
      constructor
      · intro h10
        exact absurd h10 (by norm_num)
      · intro hall
        obtain ⟨x, hx, hxpos⟩ := hex
        exact absurd (hall x hx) (ne_of_gt hxpos)

/-- Witness for C4 at the two-item corpus `[["a"], ["b"]]`, item `0`. -/
theorem similarity_diag_witness :
    0 < ([["a"], ["b"]] : Corpus).length ∧
      ((sim [["a"], ["b"]] 0 0 = 0 ∨ sim [["a"], ["b"]] 0 0 = 1) ∧
        (sim [["a"], ["b"]] 0 0 = 1 ↔ ∃ x ∈ weightRow [["a"], ["b"]] 0, 0 < x) ∧
        (sim [["a"], ["b"]] 0 0 = 0 ↔ ∀ x ∈ weightRow [["a"], ["b"]] 0, x = 0)) :=
  ⟨by norm_num, similarity_diag [["a"], ["b"]] 0 (by norm_num)⟩

/-- C5: the computed similarity matrix is symmetric: for every pair of
items `i` and `j`, `sim(i,j) = sim(j,i)`. -/
theorem similarity_symm (c : Corpus) (i j : ℕ) : sim c i j = sim c j i := by
  rw [sim_eq_dot, sim_eq_dot]
  exact dot_comm _ _

/-- C6: every similarity value lies in `[-1, 1]`, and, the TF-IDF weights
being non-negative, in `[0, 1]`. -/
theorem similarity_bounds (c : Corpus) (i j : ℕ) :
    -1 ≤ sim c i j ∧ 0 ≤ sim c i j ∧ sim c i j ≤ 1 := by
  have h0 : 0 ≤ sim c i j := by
    rw [sim_eq_dot]
    exact dot_nonneg _ _ (row_getD_nonneg c c i) (row_getD_nonneg c c j)
  have h1 : sim c i j ≤ 1 := by
    rw [sim_eq_dot]
    have h2 := two_mul_dot_le ((fitRows c c).getD i []) ((fitRows c c).getD j [])
    have h3 := row_getD_sumSq_le_one c c i
    have h4 := row_getD_sumSq_le_one c c j
    linarith
  exact ⟨by linarith, h0, h1⟩

/-- C7: on a weight vector of zero L2 norm the normalizer does not take the
division branch: it returns the input unchanged, and that input is the
all-zero vector. -/
theorem normalizer_zero_vector (v : List ℝ) (h : norm2 v = 0) :
    normalize v = v ∧ v = List.replicate v.length 0 := by
  refine ⟨normalize_zero v h, ?_⟩
  rw [List.eq_replicate_iff]
  refine ⟨rfl, ?_⟩
  rw [norm2_eq_zero_iff, sumSq_eq_zero_iff] at h
  exact h

/-- Witness for C7 at the concrete all-zero vector `[0, 0]`. -/
theorem normalizer_zero_vector_witness :
    norm2 [(0 : ℝ), 0] = 0 ∧
      (normalize [(0 : ℝ), 0] = [(0 : ℝ), 0] ∧
        [(0 : ℝ), 0] = List.replicate ([(0 : ℝ), 0]).length 0) := by
  have h : norm2 [(0 : ℝ), 0] = 0 := by
    rw [norm2_eq_zero_iff, sumSq_eq_zero_iff]
    intro x hx
    rcases List.mem_cons.mp hx with h | h
    · exact h
    · simpa using h
  exact ⟨h, normalizer_zero_vector _ h⟩

lemma norm2_single (x : ℝ) (hx : 0 ≤ x) : norm2 [x] = x := by
  rw [norm2]
  have : sumSq [x] = x * x := by simp [sumSq]
  rw [this]
  exact Real.sqrt_mul_self hx

lemma normalize_single_pos (x : ℝ) (hx : 0 < x) : normalize [x] = [1] := by
  rw [normalize, norm2_single x (le_of_lt hx), if_neg (ne_of_gt hx)]
  simp [div_self (ne_of_gt hx)]

lemma normalize_single_zero : normalize [(0 : ℝ)] = [0] := by
  rw [normalize, if_pos]
  rw [norm2_single 0 le_rfl]

lemma idf_two_one_pos : 0 < idf 2 1 := by
  rw [idf]
  apply Real.log_pos
  norm_num

lemma idf_two_two : idf 2 2 = 0 := by
  rw [idf]
  norm_num

lemma vocab_aa : vocab [["a"], ["a"]] = ["a"] := by decide

lemma vocab_ab : vocab [["a"], ["b"]] = ["a", "b"] := by decide

lemma fitRows_ab_aa :
    fitRows [["a"], ["b"]] [["a"], ["a"]] = [[1], [0]] := by
  rw [fitRows, vocab_aa]
  have hdf : df [["a"], ["b"]] "a" = 1 := by decide
  have h1 : tfidfRow ["a"] [["a"], ["b"]] ["a"] = [idf 2 1] := by
    rw [tfidfRow]
    simp [tf, hdf]
  have h2 : tfidfRow ["a"] [["a"], ["b"]] ["b"] = [0] := by
    rw [tfidfRow]
    simp [tf, hdf]
  simp only [List.map_cons, List.map_nil, h1, h2]
  rw [normalize_single_pos _ idf_two_one_pos, normalize_single_zero]

lemma fitRows_aa_aa :
    fitRows [["a"], ["a"]] [["a"], ["a"]] = [[0], [0]] := by
  rw [fitRows, vocab_aa]
  have hdf : df [["a"], ["a"]] "a" = 2 := by decide
  have h1 : tfidfRow ["a"] [["a"], ["a"]] ["a"] = [0] := by
    rw [tfidfRow]
    simp [tf, hdf, idf_two_two]
  simp only [List.map_cons, List.map_nil, h1]
  rw [normalize_single_zero]

lemma fitSim_ab_aa : fitSim [["a"], ["b"]] [["a"], ["a"]] 0 0 = 1 := by
  rw [fitSim, fitRows_ab_aa, simMat]
  simp [dot]

lemma fitSim_aa_aa : fitSim [["a"], ["a"]] [["a"], ["a"]] 0 0 = 0 := by
  rw [fitSim, fitRows_aa_aa, simMat]
  simp [dot]

/-- C3: `_fit_tf_idf` transforms the module-level global `tokens_df`, not
its `df` parameter: the similarity matrix is unchanged when the `df`
argument is replaced by any corpus with the same vocabulary, and at a
concrete input where the global and the argument differ the matrix equals
the one built from the global rows, not the argument rows. -/
theorem fit_uses_global_tokens (g d1 d2 : Corpus) (i j : ℕ)
    (h : vocab d1 = vocab d2) :
    fitSim g d1 i j = fitSim g d2 i j ∧
      fitSim [["a"], ["b"]] [["a"], ["a"]] 0 0 ≠
        fitSim [["a"], ["a"]] [["a"], ["a"]] 0 0 := by
  constructor
  · rw [fitSim, fitSim, fitRows, fitRows, h]
  · rw [fitSim_ab_aa, fitSim_aa_aa]
    norm_num

/-- Witness for C3 at `g = [["a"], ["b"]]`, `d1 = [["a"]]`,
`d2 = [["a"], ["a"]]` (same vocabulary, different rows). -/
theorem fit_uses_global_tokens_witness :
    vocab [["a"]] = vocab [["a"], ["a"]] ∧
      (fitSim [["a"], ["b"]] [["a"]] 0 0 =
          fitSim [["a"], ["b"]] [["a"], ["a"]] 0 0 ∧
        fitSim [["a"], ["b"]] [["a"], ["a"]] 0 0 ≠
          fitSim [["a"], ["a"]] [["a"], ["a"]] 0 0) :=
  ⟨by decide, fit_uses_global_tokens [["a"], ["b"]] [["a"]] [["a"], ["a"]] 0 0 (by decide)⟩

/-- C9: the pipeline is deterministic: on equal corpora the vocabulary,
the normalised TF-IDF rows and the similarity matrix coincide. -/
theorem pipeline_deterministic (c1 c2 : Corpus) (i j : ℕ) (h : c1 = c2) :
    vocab c1 = vocab c2 ∧ fitRows c1 c1 = fitRows c2 c2 ∧
      sim c1 i j = sim c2 i j := by
  subst h
  exact ⟨rfl, rfl, rfl⟩

/-- Witness for C9 at the corpus `[["a"]]`. -/
theorem pipeline_deterministic_witness :
    ([["a"]] : Corpus) = [["a"]] ∧
      (vocab [["a"]] = vocab [["a"]] ∧
        fitRows [["a"]] [["a"]] = fitRows [["a"]] [["a"]] ∧
        sim [["a"]] 0 0 = sim [["a"]] 0 0) :=
  ⟨rfl, pipeline_deterministic [["a"]] [["a"]] 0 0 rfl⟩

/-- The comparator realised by a stable ascending `argsort` of the row
`f`: by value, then by index on ties. -/
noncomputable def simLe (f : ℕ → ℝ) (a b : ℕ) : Bool :=
  decide (f a < f b ∨ (f a = f b ∧ a ≤ b))

/-- numpy `argsort` of the length-`n` row `f`: indices sorted ascending by
value (modelled stable, so ties are in ascending index order). -/
noncomputable def argsortAsc (f : ℕ → ℝ) (n : ℕ) : List ℕ :=
  (List.range n).mergeSort (simLe f)

/-- `argsort()[::-1]`: the reversed ascending argsort, i.e. indices by
descending value, ties in descending index order. -/
noncomputable def descSort (f : ℕ → ℝ) (n : ℕ) : List ℕ :=
  (argsortAsc f n).reverse

/-- `[:k]` applied to the reversed argsort of an arbitrary row. -/
noncomputable def topkRow (f : ℕ → ℝ) (n k : ℕ) : List ℕ :=
  (descSort f n).take k

/-- The source's top-k query `cosine_similarity[q].argsort()[::-1][:k]`. -/
noncomputable def topk (c : Corpus) (q k : ℕ) : List ℕ :=
  topkRow (fun j => sim c q j) c.length k

lemma simLe_iff (f : ℕ → ℝ) (a b : ℕ) :
    simLe f a b = true ↔ (f a < f b ∨ (f a = f b ∧ a ≤ b)) :=
  decide_eq_true_iff

lemma simLe_trans (f : ℕ → ℝ) : ∀ a b c : ℕ,
    simLe f a b = true → simLe f b c = true → simLe f a c = true := by
  intro a b c hab hbc
  rw [simLe_iff] at hab hbc ⊢
  rcases hab with h1 | ⟨h1, h1'⟩ <;> rcases hbc with h2 | ⟨h2, h2'⟩
  · exact Or.inl (lt_trans h1 h2)
  · exact Or.inl (h2 ▸ h1)
  · exact Or.inl (h1 ▸ h2)
  · exact Or.inr ⟨h1.trans h2, le_trans h1' h2'⟩

lemma simLe_total (f : ℕ → ℝ) : ∀ a b : ℕ,
    (simLe f a b || simLe f b a) = true := by
  intro a b
  rw [Bool.or_eq_true, simLe_iff, simLe_iff]
  rcases lt_trichotomy (f a) (f b) with h | h | h
  · exact Or.inl (Or.inl h)
  · rcases Nat.le_total a b with hle | hle
    · exact Or.inl (Or.inr ⟨h, hle⟩)
    · exact Or.inr (Or.inr ⟨h.symm, hle⟩)
  · exact Or.inr (Or.inl h)

lemma argsortAsc_perm (f : ℕ → ℝ) (n : ℕ) :
    (argsortAsc f n).Perm (List.range n) :=
  List.mergeSort_perm _ _

lemma descSort_perm (f : ℕ → ℝ) (n : ℕ) :
    (descSort f n).Perm (List.range n) :=
  (List.reverse_perm _).trans (argsortAsc_perm f n)

lemma descSort_nodup (f : ℕ → ℝ) (n : ℕ) : (descSort f n).Nodup :=
  ((descSort_perm f n).symm.nodup) (List.nodup_range n)

lemma descSort_sorted (f : ℕ → ℝ) (n : ℕ) :
    (descSort f n).Pairwise (fun a b => simLe f b a = true) := by
  rw [descSort, List.pairwise_reverse]
  exact List.sorted_mergeSort (simLe_trans f) (simLe_total f) (List.range n)

lemma descSort_length (f : ℕ → ℝ) (n : ℕ) : (descSort f n).length = n := by
  rw [(descSort_perm f n).length_eq, List.length_range]

lemma descSort_strict (f : ℕ → ℝ) (n : ℕ) :
    (descSort f n).Pairwise
      (fun a b => f b < f a ∨ (f b = f a ∧ b < a)) := by
  have h1 := descSort_sorted f n
  have h2 : (descSort f n).Pairwise (fun a b : ℕ => a ≠ b) := descSort_nodup f n
  refine (h1.and h2).imp ?_
  rintro a b ⟨hle, hne⟩
  rw [simLe_iff] at hle
  rcases hle with h | ⟨h, h'⟩
  · exact Or.inl h
  · exact Or.inr ⟨h, lt_of_le_of_ne h' (Ne.symm hne)⟩

lemma topkRow_length (f : ℕ → ℝ) (n k : ℕ) :
    (topkRow f n k).length = min k n := by
  rw [topkRow, List.length_take, descSort_length]

lemma topkRow_nodup (f : ℕ → ℝ) (n k : ℕ) : (topkRow f n k).Nodup :=
  (descSort_nodup f n).sublist (List.take_sublist _ _)

lemma topkRow_mem_lt (f : ℕ → ℝ) (n k i : ℕ) (hi : i ∈ topkRow f n k) :
    i < n := by
  have h1 : i ∈ descSort f n := (List.take_sublist _ _).subset hi
  exact List.mem_range.mp ((descSort_perm f n).subset h1)

lemma topkRow_pairwise (f : ℕ → ℝ) (n k : ℕ) :
    (topkRow f n k).Pairwise
      (fun a b => f b < f a ∨ (f b = f a ∧ b < a)) :=
  (descSort_strict f n).sublist (List.take_sublist _ _)

lemma topkRow_complete (f : ℕ → ℝ) (n k j i : ℕ) (hj : j < n)
    (hjn : j ∉ topkRow f n k) (hi : i ∈ topkRow f n k) :
    f j < f i ∨ (f j = f i ∧ j < i) := by
  have hsplit : descSort f n = (descSort f n).take k ++ (descSort f n).drop k :=
    (List.take_append_drop k (descSort f n)).symm
  have hjmem : j ∈ descSort f n :=
    (descSort_perm f n).symm.subset (List.mem_range.mpr hj)
  have hjd : j ∈ (descSort f n).drop k := by
    rw [hsplit] at hjmem
    rcases List.mem_append.mp hjmem with h | h
    · exact absurd h hjn
    · exact h
  have hsorted := descSort_strict f n
  rw [hsplit, List.pairwise_append] at hsorted
  exact hsorted.2.2 i hi j hjd

lemma topkRow_all (f : ℕ → ℝ) (n k : ℕ) (hk : n ≤ k) :
    (topkRow f n k).Perm (List.range n) := by
  rw [topkRow, List.take_of_length_le (by rw [descSort_length]; exact hk)]
  exact descSort_perm f n

lemma sim_aa_zero (i j : ℕ) : sim [["a"], ["a"]] i j = 0 := by
  rw [sim, fitSim, fitRows_aa_aa, simMat]
  rcases i with _ | _ | i <;> rcases j with _ | _ | j <;> simp [dot, List.getD]

lemma argsortAsc_aa : argsortAsc (fun j => sim [["a"], ["a"]] 0 j) 2 = [0, 1] := by
  have hle : simLe (fun j => sim [["a"], ["a"]] 0 j) 0 1 = true := by
    rw [simLe_iff]
    exact Or.inr ⟨by rw [sim_aa_zero, sim_aa_zero], Nat.zero_le 1⟩
  rw [argsortAsc, show List.range 2 = [0, 1] from rfl]
  simp [List.mergeSort, hle]

lemma topk_aa (k : ℕ) : topk [["a"], ["a"]] 0 k = [1, 0].take k := by
  rw [topk, topkRow, descSort, show ([["a"], ["a"]] : Corpus).length = 2 from rfl,
    argsortAsc_aa]
  rfl

/-- C2 counterexample: on the two-item corpus `[["a"], ["a"]]` the query
`topk(q = 0, k = 2)` returns `[1, 0]`: it contains the queried item `0`
itself, which the claim excludes (and the tie at equal similarity is
ordered by descending identifier, not ascending). -/
theorem topk_includes_self_cex :
    topk [["a"], ["a"]] 0 2 = [1, 0] ∧ 0 ∈ topk [["a"], ["a"]] 0 2 := by
  have h := topk_aa 2
  rw [List.take_of_length_le (by norm_num)] at h
  exact ⟨h, by rw [h]; simp⟩

/-- C2 amended: `topk(q, k)` returns the first `min k N` of all `N` item
identifiers (the queried item included) ordered by descending similarity,
ties broken by descending identifier; identifiers are distinct and valid,
and every identifier left out ranks no higher than any returned one. -/
theorem topk_desc_with_self (c : Corpus) (q k j i : ℕ) (hj : j < c.length)
    (hjn : j ∉ topk c q k) (hi : i ∈ topk c q k) :
    (topk c q k).length = min k c.length ∧
      (topk c q k).Nodup ∧
      i < c.length ∧
      (topk c q k).Pairwise
        (fun a b => sim c q b < sim c q a ∨ (sim c q b = sim c q a ∧ b < a)) ∧
      (sim c q j < sim c q i ∨ (sim c q j = sim c q i ∧ j < i)) :=
  ⟨topkRow_length _ _ _, topkRow_nodup _ _ _, topkRow_mem_lt _ _ _ _ hi,
    topkRow_pairwise _ _ _, topkRow_complete _ _ _ _ _ hj hjn hi⟩

/-- Witness for the amended C2 on `[["a"], ["a"]]`, `q = 0`, `k = 1`,
left-out item `j = 0`, returned item `i = 1`. -/
theorem topk_desc_with_self_witness :
    0 < ([["a"], ["a"]] : Corpus).length ∧
      0 ∉ topk [["a"], ["a"]] 0 1 ∧
      1 ∈ topk [["a"], ["a"]] 0 1 ∧
      ((topk [["a"], ["a"]] 0 1).length =
          min 1 ([["a"], ["a"]] : Corpus).length ∧
        (topk [["a"], ["a"]] 0 1).Nodup ∧
        1 < ([["a"], ["a"]] : Corpus).length ∧
        (topk [["a"], ["a"]] 0 1).Pairwise
          (fun a b => sim [["a"], ["a"]] 0 b < sim [["a"], ["a"]] 0 a ∨
            (sim [["a"], ["a"]] 0 b = sim [["a"], ["a"]] 0 a ∧ b < a)) ∧
        (sim [["a"], ["a"]] 0 0 < sim [["a"], ["a"]] 0 1 ∨
          (sim [["a"], ["a"]] 0 0 = sim [["a"], ["a"]] 0 1 ∧ 0 < 1))) := by
  have h1 : topk [["a"], ["a"]] 0 1 = [1] := topk_aa 1
  have hjn : 0 ∉ topk [["a"], ["a"]] 0 1 := by rw [h1]; simp
  have hi : 1 ∈ topk [["a"], ["a"]] 0 1 := by rw [h1]; simp
  exact ⟨by norm_num, hjn, hi,
    topk_desc_with_self [["a"], ["a"]] 0 1 0 1 (by norm_num) hjn hi⟩

/-- C8: `topk(q, 0)` is the empty sequence, and for `k` at least the item
count `topk(q, k)` is all item identifiers sorted by descending
similarity. -/
theorem topk_edge_cases (c : Corpus) (q k : ℕ) (hk : c.length ≤ k) :
    topk c q 0 = [] ∧
      (topk c q k).Perm (List.range c.length) ∧
      (topk c q k).Pairwise
        (fun a b => sim c q b < sim c q a ∨ (sim c q b = sim c q a ∧ b < a)) :=
  ⟨by rw [topk, topkRow, List.take_zero], topkRow_all _ _ _ hk,
    topkRow_pairwise _ _ _⟩

/-- Witness for C8 on `[["a"], ["a"]]`, `q = 0`, `k = 2`. -/
theorem topk_edge_cases_witness :
    ([["a"], ["a"]] : Corpus).length ≤ 2 ∧
      (topk [["a"], ["a"]] 0 0 = [] ∧
        (topk [["a"], ["a"]] 0 2).Perm
          (List.range ([["a"], ["a"]] : Corpus).length) ∧
        (topk [["a"], ["a"]] 0 2).Pairwise
          (fun a b => sim [["a"], ["a"]] 0 b < sim [["a"], ["a"]] 0 a ∨
            (sim [["a"], ["a"]] 0 b = sim [["a"], ["a"]] 0 a ∧ b < a))) :=
  ⟨by norm_num, topk_edge_cases [["a"], ["a"]] 0 2 (by norm_num)⟩

/-- Python's `' '.join`: concatenate a list of strings with a single-space
separator.  `get_personalities` builds the `personality` column this way
from the set of derived labels. -/
def joinSpace : List String → String
  | [] => ""
  | [s] => s
  | s :: rest => s ++ " " ++ joinSpace rest

/-- One indicator cell of `get_dummies`:
`F.when(F.col(col_name) == ty, 1).otherwise(0)` — the cell is `1` iff the
whole personality string equals the label `ty`. -/
def dummy (p ty : String) : ℕ := if p = ty then 1 else 0

/-- The `col_attributes` label set of `get_dummies`: the distinct
space-separated pieces of the observed personality strings. -/
def colAttributes (ps : List String) : List String :=
  ((ps.map (fun p => p.splitOn " ")).flatten).eraseDups

lemma space_mem_joinSpace (ls : List String) (h2 : 2 ≤ ls.length) :
    ' ' ∈ (joinSpace ls).data := by
  match ls with
  | a :: b :: rest =>
    show ' ' ∈ (a ++ " " ++ joinSpace (b :: rest)).data
    rw [String.data_append, String.data_append]
    simp

/-- C10: an indicator cell of `get_dummies` is `1` only on whole-string
equality with its label, so a personality string joined from two or more
labels makes every single-label (space-free) indicator `0`. -/
theorem dummies_whole_string (ls : List String) (p ty q : String)
    (h2 : 2 ≤ ls.length) (hp : p = joinSpace ls) (hty : ' ' ∉ ty.data) :
    dummy p ty = 0 ∧ (dummy q ty = 1 ↔ q = ty) := by
  constructor
  · have hne : p ≠ ty := by
      intro he
      apply hty
      rw [← he, hp]
      exact space_mem_joinSpace ls h2
    rw [dummy, if_neg hne]
  · constructor
    · intro h1
      by_contra hne
      rw [dummy, if_neg hne] at h1
      exact absurd h1 (by norm_num)
    · intro he
      rw [dummy, if_pos he]

/-- Witness for C10: the two-label personality string `"creative fun"` has
indicator `0` for the label `"quiet"`, while `"quiet"` itself has
indicator `1`. -/
theorem dummies_whole_string_witness :
    2 ≤ (["creative", "fun"] : List String).length ∧
      "creative fun" = joinSpace ["creative", "fun"] ∧
      ' ' ∉ "quiet".data ∧
      (dummy "creative fun" "quiet" = 0 ∧
        (dummy "quiet" "quiet" = 1 ↔ "quiet" = "quiet")) :=
  ⟨by norm_num, by decide, by decide,
    dummies_whole_string ["creative", "fun"] "creative fun" "quiet" "quiet"
      (by norm_num) (by decide) (by decide)⟩

end RecSys
